import Mathlib

/-!
Verification of the fuzzy intent matcher of the employee ticketing system
(`src/app/app/dashboard/page.tsx`, functions `norm`, `levenshtein`,
`similarity`, `fuzzyHit`, `fuzzyAction`, `detectQuickAction`).

Modelling conventions:
* A JavaScript string is modelled as a `List Char` of Unicode scalar values.
* `String.prototype.toLowerCase`, the Unicode classes `\p{L}` / `\p{N}` and
  NFKC normalization are modelled on the ASCII fragment: `jsToLower` lowers
  the Basic Latin capital letters and fixes every other character,
  `jsIsLetter` / `jsIsDigit` are the ASCII letter and digit classes, and
  NFKC (which is the identity on ASCII text) is modelled by `nfkcTxt`.
  All canonical phrases and regex literals of the source are ASCII, so the
  matcher logic is exercised faithfully on this fragment.
* The regex whitespace class `\s` and the line-terminator set excluded by
  `.` are the exact JavaScript sets, listed code point by code point.
* JavaScript float arithmetic in `similarity` (small integer quotients) is
  modelled exactly over the rationals.
-/

namespace ETS

/-- A JavaScript string, as its list of Unicode scalar values. -/
abbrev Str := List Char

/-- The exact JavaScript regex whitespace class `\s` (also the set stripped
by `String.prototype.trim`). -/
def jsIsSpace (c : Char) : Bool :=
  c = ' ' || c = '\t' || c = '\n' || c.val = 0x0B || c.val = 0x0C ||
  c = '\r' || c.val = 0xA0 || c.val = 0x1680 ||
  (0x2000 ≤ c.val && c.val ≤ 0x200A) || c.val = 0x2028 || c.val = 0x2029 ||
  c.val = 0x202F || c.val = 0x205F || c.val = 0x3000 || c.val = 0xFEFF

/-- The JavaScript line terminators, the characters not matched by `.`
in a regex without the `s` flag. -/
def isLineTerm (c : Char) : Bool :=
  c = '\n' || c = '\r' || c.val = 0x2028 || c.val = 0x2029

/-- Model of `String.prototype.toLowerCase`: lowers `A`..`Z`, fixes every
other modelled character. -/
def jsToLower (c : Char) : Char :=
  if 65 ≤ c.toNat ∧ c.toNat ≤ 90 then Char.ofNat (c.toNat + 32) else c

/-- Model of the Unicode letter class `\p{L}` on the modelled fragment. -/
def jsIsLetter (c : Char) : Bool := c.isAlpha

/-- Model of the Unicode number class `\p{N}` on the modelled fragment. -/
def jsIsDigit (c : Char) : Bool := c.isDigit

/-- Model of `String.prototype.normalize` with form NFKC, which is the
identity on the modelled fragment. -/
def nfkcTxt (s : Str) : Str := s

/-- One character of the replacement `/[^\p{L}\p{N}\s]/gu → ' '` in `norm`:
letters, digits and whitespace are kept, everything else becomes a space. -/
def replaceStep (c : Char) : Char :=
  if jsIsLetter c || jsIsDigit c || jsIsSpace c then c else ' '

/-- The replacement `/\s+/g → ' '` in `norm`: every maximal nonempty run of
whitespace characters is replaced by a single ASCII space. -/
def collapseWs : Str → Str
  | [] => []
  | [c] => [if jsIsSpace c then ' ' else c]
  | c :: d :: cs =>
    if jsIsSpace c && jsIsSpace d then collapseWs (d :: cs)
    else (if jsIsSpace c then ' ' else c) :: collapseWs (d :: cs)

/-- Model of `String.prototype.trim`: strip whitespace from both ends. -/
def trimWs (l : Str) : Str :=
  ((l.dropWhile jsIsSpace).reverse.dropWhile jsIsSpace).reverse

/-- The source function `norm`: NFKC-normalize, lower-case, replace every
character that is not a letter, digit or whitespace by a space, collapse
whitespace runs to single spaces, and trim. -/
def norm (s : Str) : Str :=
  trimWs (collapseWs (((nfkcTxt s).map jsToLower).map replaceStep))

/-- Substitution cost of the source `levenshtein`: 0 if the characters are
equal, 1 otherwise. -/
def levCost (x y : Char) : Nat := if x = y then 0 else 1

/-- Inner loop of the source `levenshtein`: given the previous DP row (from
column `j - 1` on) and the freshly computed value `cur` of column `j - 1` of
the current row, produce the current row from column `j` on. -/
def levRow (x : Char) : Str → List Nat → Nat → List Nat
  | y :: ys, p0 :: p1 :: ps, cur =>
    let v := min (min (p1 + 1) (cur + 1)) (p0 + levCost x y)
    v :: levRow x ys (p1 :: ps) v
  | _, _, _ => []

/-- One outer-loop iteration of the source `levenshtein`: compute DP row `i`
from row `i - 1`, seeding column 0 with `dp i 0 = dp (i-1) 0 + 1 = i`. -/
def levStep (b : Str) (prev : List Nat) (x : Char) : List Nat :=
  (prev.headD 0 + 1) :: levRow x b prev (prev.headD 0 + 1)

/-- The source function `levenshtein`: classic dynamic-programming table,
with the early returns for an empty argument, the row initialisations
`dp i 0 = i` and `dp 0 j = j`, and result `dp m n`. -/
def levenshtein (a b : Str) : Nat :=
  if a.length = 0 then b.length
  else if b.length = 0 then a.length
  else ((a.foldl (levStep b) (List.range (b.length + 1))).getLastD 0)

/-- The source function `similarity`:
`1 - levenshtein a b / (max (len a) (len b) || 1)`, with the JavaScript
float arithmetic modelled exactly over the rationals. -/
def similarity (a b : Str) : ℚ :=
  let d := levenshtein a b
  let denom := max a.length b.length
  let denom := if denom = 0 then 1 else denom
  1 - (d : ℚ) / (denom : ℚ)

/-- Whether `small` is an exact prefix of `big`: the single-position step
of `String.prototype.includes`. -/
def hasPref : Str → Str → Bool
  | [], _ => true
  | _ :: _, [] => false
  | c :: cs, d :: ds => c = d && hasPref cs ds

/-- Model of `big.includes(small)`: `small` occurs contiguously in `big`
(argument order: the needle first, then the haystack). -/
def hasSub (small : Str) : Str → Bool
  | [] => hasPref small []
  | c :: bs => hasPref small (c :: bs) || hasSub small bs

/-- The source function `fuzzyHit`: normalize both strings; an empty side
never matches; otherwise match on mutual inclusion, on
`similarity ≥ 0.78`, or on the short-string rescue
(both lengths at most 8 and edit distance at most 2). -/
def fuzzyHit (input phrase : Str) : Bool :=
  let A := norm input
  let B := norm phrase
  if A.isEmpty || B.isEmpty then false
  else if hasSub B A || hasSub A B then true
  else if (78 : ℚ) / 100 ≤ similarity A B then true
  else if max A.length B.length ≤ 8 ∧ levenshtein A B ≤ 2 then true
  else false

/-- The four quick actions of the dashboard text matcher. -/
inductive QuickAction where
  | start
  | «end»
  | tickets
  | ticket
deriving DecidableEq

/-- The result type of `detectQuickAction`: an action with an optional
inline note. -/
structure Detected where
  action : QuickAction
  note : Option Str := none
deriving DecidableEq

/-- The canonical phrase table `CANON` of the source, per action. -/
def CANON : QuickAction → List Str
  | .start =>
    ["start".data, "start work".data, "clock in".data, "sign in".data,
     "pasok na".data, "mag start".data, "magstart".data, "inizia".data,
     "inizia lavoro".data, "entra".data, "timbratura inizio".data]
  | .«end» =>
    ["end".data, "end work".data, "clock out".data, "sign out".data,
     "finish".data, "done".data, "tapos na".data, "uwi na".data,
     "fine".data, "fine lavoro".data, "esci".data, "timbratura fine".data]
  | .tickets =>
    ["tickets".data, "my tickets".data, "view tickets".data,
     "tingnan tickets".data, "segnalazioni".data,
     "le mie segnalazioni".data, "vedi segnalazioni".data,
     "visualizza segnalazioni".data]
  | .ticket =>
    ["send ticket".data, "ticket".data, "create ticket".data,
     "open ticket".data, "invia segnalazione".data, "segnalazione".data,
     "crea segnalazione".data, "apri segnalazione".data]

/-- Iteration order of `Object.entries(CANON)` in the source: the insertion
order of the object literal. -/
def canonOrder : List QuickAction :=
  [.start, .«end», .tickets, .ticket]

/-- Model of a JavaScript word character `\w` (used by `\b`). -/
def wordChar (c : Char) : Bool := c.isAlpha || c.isDigit || c = '_'

/-- Case folding of the case-insensitive regex flag on the modelled
fragment: both characters are lowered and compared. -/
def ciEq (a b : Char) : Bool := jsToLower a = jsToLower b

/-- Strip a literal regex word `lit` off the front of `l`, case
insensitively; `none` when `lit` is not a prefix of `l`. -/
def stripCI : Str → Str → Option Str
  | [], l => some l
  | _ :: _, [] => none
  | c :: cs, d :: ds => if ciEq c d then stripCI cs ds else none

/-- A word-boundary `\b` immediately before a word character holds exactly
when the previous character is absent or not a word character. -/
def boundaryB : Option Char → Bool
  | none => true
  | some p => !wordChar p

/-- Whether `\bw\b` matches at the very start of `l` (with `prevOk` the
boundary information for the position): `w` is a case-insensitive prefix
and the following character, if any, is not a word character. -/
def atWordFull (w l : Str) : Bool :=
  match stripCI w l with
  | some [] => true
  | some (c :: _) => !wordChar c
  | none => false

/-- Search of `regex.test` for `\bw\b` over every position of the string,
tracking the previous character for the leading boundary. -/
def scanFull (w : Str) : Option Char → Str → Bool
  | prev, [] => boundaryB prev && atWordFull w []
  | prev, c :: rest =>
    (boundaryB prev && atWordFull w (c :: rest)) || scanFull w (some c) rest

/-- Model of `/\bw\b/i.test input` for a literal word `w`. -/
def testWordFull (w input : Str) : Bool := scanFull w none input

/-- Search of `regex.test` for `\bw` (no trailing boundary) over every
position of the string. -/
def scanOpen (w : Str) : Option Char → Str → Bool
  | prev, [] => boundaryB prev && (stripCI w []).isSome
  | prev, c :: rest =>
    (boundaryB prev && (stripCI w (c :: rest)).isSome) || scanOpen w (some c) rest

/-- Model of `/\bw/i.test input` for a literal word stem `w`. -/
def testWordOpen (w input : Str) : Bool := scanOpen w none input

/-- The keyword-pair fallback rules at the end of the source `fuzzyAction`,
in source order. `\bticket(s)?\b` is expanded to the disjunction of the two
full words `ticket` and `tickets`, and `\b(vedi|visualizza|mie)\b` to the
disjunction of its three alternatives, which are equivalent tests. -/
def fallbackAction (input : Str) : Option QuickAction :=
  if testWordFull "inizia".data input && testWordFull "lavoro".data input then
    some .start
  else if testWordFull "fine".data input && testWordFull "lavoro".data input then
    some .«end»
  else if testWordOpen "segnalazion".data input &&
      (testWordFull "vedi".data input || testWordFull "visualizza".data input ||
       testWordFull "mie".data input) then
    some .tickets
  else if testWordFull "invia".data input && testWordOpen "segnalazion".data input then
    some .ticket
  else if testWordFull "start".data input && testWordFull "work".data input then
    some .start
  else if testWordFull "end".data input && testWordFull "work".data input then
    some .«end»
  else if (testWordFull "ticket".data input || testWordFull "tickets".data input) &&
      (testWordFull "view".data input || testWordFull "tingnan".data input ||
       testWordFull "my".data input) then
    some .tickets
  else if testWordFull "send".data input &&
      (testWordFull "ticket".data input || testWordFull "tickets".data input) then
    some .ticket
  else none

/-- The source function `fuzzyAction`: first action of `canonOrder` with a
fuzzy phrase hit, else the keyword-pair fallback rules. -/
def fuzzyAction (input : Str) : Option QuickAction :=
  match canonOrder.find? (fun a => (CANON a).any (fun p => fuzzyHit input p)) with
  | some a => some a
  | none => fallbackAction input

/-- Whether some canonical phrase of action `a` fuzzy-matches `input` (the
loop predicate of the source `fuzzyAction`). -/
def hits (input : Str) (a : QuickAction) : Bool :=
  (CANON a).any (fun p => fuzzyHit input p)

/-- First alternative of the note-extraction regex of `detectQuickAction`:
the anchored pattern of optional whitespace, an optional slash, optional
whitespace, then the literal `ticket` or `segnalazione`. Returns the rest
of the input after the matched prefix. The whitespace and slash classes
are disjoint from the letters of the keywords, so the backtracking search
of the regex engine is deterministic and equals this greedy scan. -/
def matchKeywordA (raw : Str) : Option Str :=
  let l1 := raw.dropWhile jsIsSpace
  let l2 := match l1 with
    | c :: r => if c = '/' then r else l1
    | [] => l1
  let l3 := l2.dropWhile jsIsSpace
  match stripCI "ticket".data l3 with
  | some r => some r
  | none => stripCI "segnalazione".data l3

/-- Second alternative of the note-extraction regex: the anchored pattern
of the literal `send` or `invia`, optional whitespace, the literal
`ticket` or `segnalazion` followed by `e` or `i`, then an optional `s`.
The optional `s` is consumed greedily when present, which is exactly what
the engine commits to because the continuation `\s+` can never match a
letter `s`. -/
def matchKeywordB (raw : Str) : Option Str :=
  let k := match stripCI "send".data raw with
    | some r => some r
    | none => stripCI "invia".data raw
  match k with
  | none => none
  | some r1 =>
    let r2 := r1.dropWhile jsIsSpace
    let k2 := match stripCI "ticket".data r2 with
      | some r => some r
      | none =>
        match stripCI "segnalazion".data r2 with
        | some (c :: r) => if ciEq c 'e' || ciEq c 'i' then some r else none
        | _ => none
    match k2 with
    | none => none
    | some r3 =>
      match r3 with
      | c :: r4 => if ciEq c 's' then some r4 else some r3
      | [] => some r3

/-- The capture group of the note-extraction regex of `detectQuickAction`:
after one of the two keyword alternatives, `\s+(.+)$` must match the rest
of the line. `\s+` munches greedily; the capture is the remaining text,
which must be nonempty and free of line terminators (`.` matches neither
`\n`, `\r` nor the Unicode line separators). When the rest of the line is
pure whitespace of length at least two ending in a non-terminator, the
engine backtracks one character and captures that final whitespace
character. -/
def ticketNoteCapture (raw : Str) : Option Str :=
  match (match matchKeywordA raw with
         | some t => some t
         | none => matchKeywordB raw) with
  | none => none
  | some t =>
    let w := t.takeWhile jsIsSpace
    let r := t.dropWhile jsIsSpace
    match r with
    | _ :: _ =>
      if w = [] then none
      else if r.any isLineTerm then none
      else some r
    | [] =>
      match t.getLast? with
      | some c => if 2 ≤ w.length && !isLineTerm c then some [c] else none
      | none => none

/-- The truthiness test `ticketWithNote?.[1]?.trim()` of the source: the
trimmed capture group of the note-extraction regex, when the regex matched
and the trimmed capture is nonempty. -/
def usableNote (raw : Str) : Option Str :=
  match ticketNoteCapture raw with
  | some note => if trimWs note = [] then none else some (trimWs note)
  | none => none

/-- The source function `detectQuickAction`: the note-extraction pass takes
priority, then the fuzzy pass, then no match. -/
def detectQuickAction (raw : Str) : Option Detected :=
  match usableNote raw with
  | some t => some { action := .ticket, note := some t }
  | none =>
    match fuzzyAction raw with
    | some a => some { action := a }
    | none => none

/-- Position of an action in the iteration order of the canonical fuzzy
pass. -/
def actIdx : QuickAction → Nat
  | .start => 0
  | .«end» => 1
  | .tickets => 2
  | .ticket => 3

/-- An edit script of total cost `n` transforming the first string into the
second, built from the right end: `ins` inserts a character, `del` deletes
one, `copy` keeps an equal character for free, and `subst` replaces a
character by a different one. The true Levenshtein distance of the claims
is the least cost of such a script. -/
inductive Edits : Str → Str → Nat → Prop where
  | nil : Edits [] [] 0
  | ins (a b : Str) (n : Nat) (y : Char) :
      Edits a b n → Edits a (b ++ [y]) (n + 1)
  | del (a b : Str) (n : Nat) (x : Char) :
      Edits a b n → Edits (a ++ [x]) b (n + 1)
  | copy (a b : Str) (n : Nat) (x : Char) :
      Edits a b n → Edits (a ++ [x]) (b ++ [x]) n
  | subst (a b : Str) (n : Nat) (x y : Char) :
      x ≠ y → Edits a b n → Edits (a ++ [x]) (b ++ [y]) (n + 1)

/-- The textbook prefix recurrence of the Levenshtein table: `levD a b i j`
is the distance between the first `i` characters of `a` and the first `j`
characters of `b` (the cell `dp i j` of the source DP table). -/
def levD (a b : Str) : Nat → Nat → Nat
  | 0, j => j
  | i + 1, 0 => i + 1
  | i + 1, j + 1 =>
    min (min (levD a b i (j + 1) + 1) (levD a b (i + 1) j + 1))
        (levD a b i j + levCost (a.getD i ' ') (b.getD j ' '))
termination_by i j => (i, j)

/-! ### Helper lemmas about trimming -/

theorem head?_dropWhile_false {p : Char → Bool} {l : Str} {c : Char}
    (h : (l.dropWhile p).head? = some c) : p c = false := by
  have := List.head?_dropWhile_not p l
  rw [h] at this
  exact this

theorem trimWs_getLast?_false {l : Str} {c : Char}
    (h : (trimWs l).getLast? = some c) : jsIsSpace c = false := by
  unfold trimWs at h
  rw [List.getLast?_reverse] at h
  exact head?_dropWhile_false h

theorem trimWs_head?_false {l : Str} {c : Char}
    (h : (trimWs l).head? = some c) : jsIsSpace c = false := by
  unfold trimWs at h
  rw [List.head?_reverse] at h
  set X := (l.dropWhile jsIsSpace).reverse.dropWhile jsIsSpace with hX
  rcases List.dropWhile_suffix (l := (l.dropWhile jsIsSpace).reverse) jsIsSpace with ⟨pre, hpre⟩
  rcases hXnil : X with _ | ⟨x, xs⟩
  · rw [hXnil] at h; simp at h
  · have hne : X ≠ [] := by rw [hXnil]; simp
    have h1 : X.getLast? = ((l.dropWhile jsIsSpace).reverse).getLast? := by
      rw [← hpre]
      exact (List.getLast?_append_of_ne_nil pre hne).symm
    rw [h1, List.getLast?_reverse] at h
    exact head?_dropWhile_false h

theorem dropWhile_eq_self_of_head {p : Char → Bool} {l : Str}
    (h : ∀ c, l.head? = some c → p c = false) : l.dropWhile p = l := by
  cases l with
  | nil => rfl
  | cons c cs =>
    have := h c rfl
    simp [List.dropWhile_cons, this]

theorem trimWs_eq_self {l : Str}
    (hh : ∀ c, l.head? = some c → jsIsSpace c = false)
    (hl : ∀ c, l.getLast? = some c → jsIsSpace c = false) : trimWs l = l := by
  unfold trimWs
  rw [dropWhile_eq_self_of_head hh]
  rw [dropWhile_eq_self_of_head (by intro c hc; rw [List.head?_reverse] at hc; exact hl c hc)]
  exact List.reverse_reverse l

theorem trimWs_idem (l : Str) : trimWs (trimWs l) = trimWs l :=
  trimWs_eq_self (fun _ h => trimWs_head?_false h) (fun _ h => trimWs_getLast?_false h)

/-! ### Helper lemmas: the DP rows of `levenshtein` compute `levD` -/

theorem levD_zero_left (a b : Str) (j : Nat) : levD a b 0 j = j := by
  simp [levD]

theorem levD_zero_right (a b : Str) (i : Nat) : levD a b i 0 = i := by
  cases i <;> simp [levD]

theorem levD_succ (a b : Str) (i j : Nat) :
    levD a b (i + 1) (j + 1) =
      min (min (levD a b i (j + 1) + 1) (levD a b (i + 1) j + 1))
        (levD a b i j + levCost (a.getD i ' ') (b.getD j ' ')) := by
  simp only [levD]

theorem getD_lt {l : Str} {i : Nat} (h : i < l.length) : l.getD i ' ' = l[i] := by
  rw [List.getD_eq_getElem?_getD, List.getElem?_eq_getElem h]
  rfl

theorem levRow_nil (x : Char) (p : List Nat) (cur : Nat) :
    levRow x [] p cur = [] := by
  cases p with
  | nil => rfl
  | cons p0 ps => cases ps <;> rfl

theorem levRow_cons (x y : Char) (ys : Str) (p0 p1 : Nat) (ps : List Nat)
    (cur : Nat) :
    levRow x (y :: ys) (p0 :: p1 :: ps) cur =
      (min (min (p1 + 1) (cur + 1)) (p0 + levCost x y)) ::
        levRow x ys (p1 :: ps)
          (min (min (p1 + 1) (cur + 1)) (p0 + levCost x y)) := rfl

theorem levRow_spec (a b : Str) (i : Nat) :
    ∀ (ys : Str) (j : Nat), ys = b.drop j → j + ys.length = b.length →
      levRow (a.getD i ' ') ys
          ((List.range' j (ys.length + 1)).map (levD a b i))
          (levD a b (i + 1) j)
        = (List.range' (j + 1) ys.length).map (levD a b (i + 1)) := by
  intro ys
  induction ys with
  | nil =>
    intro j _ _
    rw [levRow_nil]
    simp
  | cons y ys' ih =>
    intro j hys hlen
    have hjb : j < b.length := by
      simp only [List.length_cons] at hlen
      omega
    have hdrop := List.drop_eq_getElem_cons (l := b) (n := j) hjb
    rw [← hys] at hdrop
    obtain ⟨hy, hys'⟩ := List.cons.inj hdrop
    have hr : List.range' j (ys'.length + 1 + 1) =
        j :: (j + 1) :: List.range' (j + 2) ys'.length := by
      rw [List.range'_succ, List.range'_succ]
    rw [List.length_cons, hr, List.map_cons, List.map_cons, levRow_cons]
    have hv : min (min (levD a b i (j + 1) + 1) (levD a b (i + 1) j + 1))
        (levD a b i j + levCost (a.getD i ' ') y) = levD a b (i + 1) (j + 1) := by
      rw [levD_succ a b i j, hy, getD_lt hjb]
    rw [hv]
    have htail : (levD a b i (j + 1)) :: (List.range' (j + 2) ys'.length).map (levD a b i)
        = (List.range' (j + 1) (ys'.length + 1)).map (levD a b i) := by
      rw [List.range'_succ, List.map_cons]
    rw [htail]
    rw [ih (j + 1) hys' (by simp only [List.length_cons] at hlen; omega)]
    rw [List.range'_succ (s := j + 1), List.map_cons]

theorem levFold_spec (a b : Str) :
    ∀ (xs : Str) (i : Nat), xs = a.drop i → i + xs.length = a.length →
      xs.foldl (levStep b) ((List.range' 0 (b.length + 1)).map (levD a b i))
        = (List.range' 0 (b.length + 1)).map (levD a b a.length) := by
  intro xs
  induction xs with
  | nil =>
    intro i _ hlen
    have : i = a.length := by simpa using hlen
    subst this
    rfl
  | cons x xs' ih =>
    intro i hxs hlen
    have hia : i < a.length := by
      simp only [List.length_cons] at hlen
      omega
    have hdrop := List.drop_eq_getElem_cons (l := a) (n := i) hia
    rw [← hxs] at hdrop
    obtain ⟨hx, hxs'⟩ := List.cons.inj hdrop
    rw [List.foldl_cons]
    have hstep : levStep b ((List.range' 0 (b.length + 1)).map (levD a b i)) x
        = (List.range' 0 (b.length + 1)).map (levD a b (i + 1)) := by
      unfold levStep
      have hhead : ((List.range' 0 (b.length + 1)).map (levD a b i)).headD 0 = i := by
        rw [List.range'_succ, List.map_cons]
        simp [levD_zero_right]
      rw [hhead]
      have hxg : a.getD i ' ' = x := by rw [hx]; exact getD_lt hia
      have hrs := levRow_spec a b i b 0 (by simp) (by simp)
      rw [levD_zero_right, hxg] at hrs
      rw [hrs]
      rw [List.range'_succ (s := 0) (n := b.length), List.map_cons, levD_zero_right]
    rw [hstep]
    exact ih (i + 1) hxs' (by simp only [List.length_cons] at hlen; omega)

theorem lev_eq_levD (a b : Str) : levenshtein a b = levD a b a.length b.length := by
  unfold levenshtein
  by_cases ha : a.length = 0
  · rw [if_pos ha, ha, levD_zero_left]
  · rw [if_neg ha]
    by_cases hb : b.length = 0
    · rw [if_pos hb, hb, levD_zero_right]
    · rw [if_neg hb]
      have hinit : List.range (b.length + 1) =
          (List.range' 0 (b.length + 1)).map (levD a b 0) := by
        rw [List.range_eq_range']
        exact ((List.map_congr_left (fun j _ => levD_zero_left a b j)).trans
          (List.map_id _)).symm
      rw [hinit]
      rw [levFold_spec a b a 0 (by simp) (by simp)]
      rw [List.range'_1_concat]
      simp only [List.map_append, List.map_cons, List.map_nil]
      rw [List.getLastD_concat, Nat.zero_add]

/-! ### Helper lemmas: `levenshtein` is the least cost of an edit script -/

theorem edits_nil_left : ∀ l : Str, Edits [] l l.length := by
  intro l
  induction l using List.reverseRecOn with
  | nil => exact Edits.nil
  | append_singleton l y ih =>
    have h := Edits.ins [] l l.length y ih
    simpa using h

theorem edits_nil_right : ∀ l : Str, Edits l [] l.length := by
  intro l
  induction l using List.reverseRecOn with
  | nil => exact Edits.nil
  | append_singleton l x ih =>
    have h := Edits.del l [] l.length x ih
    simpa using h

theorem edits_refl : ∀ l : Str, Edits l l 0 := by
  intro l
  induction l using List.reverseRecOn with
  | nil => exact Edits.nil
  | append_singleton l x ih => exact Edits.copy l l 0 x ih

theorem edits_symm {A B : Str} {n : Nat} (h : Edits A B n) : Edits B A n := by
  induction h with
  | nil => exact Edits.nil
  | ins a b n y _ ih => exact Edits.del b a n y ih
  | del a b n x _ ih => exact Edits.ins b a n x ih
  | copy a b n x _ ih => exact Edits.copy b a n x ih
  | subst a b n x y hxy _ ih => exact Edits.subst b a n y x (Ne.symm hxy) ih

theorem take_succ_getD {l : Str} {i : Nat} (h : i < l.length) :
    l.take (i + 1) = l.take i ++ [l.getD i ' '] := by
  rw [List.take_succ, getD_lt h, List.getElem?_eq_getElem h]
  rfl

theorem take_concat_inv {l A' : Str} {x : Char} {i : Nat} (hi : i ≤ l.length)
    (h : A' ++ [x] = l.take i) :
    ∃ i', i = i' + 1 ∧ i' < l.length ∧ A' = l.take i' ∧ x = l.getD i' ' ' := by
  cases i with
  | zero => rw [List.take_zero] at h; exact absurd h (by simp)
  | succ i' =>
    have hi' : i' < l.length := by omega
    rw [take_succ_getD hi'] at h
    have h2 := List.append_inj' h rfl
    refine ⟨i', rfl, hi', h2.1, ?_⟩
    simpa using h2.2

theorem edits_take_levD (a b : Str) :
    ∀ i j, i ≤ a.length → j ≤ b.length →
      Edits (a.take i) (b.take j) (levD a b i j) := by
  intro i
  induction i with
  | zero =>
    intro j _ hj
    rw [List.take_zero, levD_zero_left]
    have hlen : (b.take j).length = j := by rw [List.length_take]; omega
    nth_rewrite 2 [← hlen]
    exact edits_nil_left _
  | succ i ihi =>
    intro j
    induction j with
    | zero =>
      intro hi _
      rw [List.take_zero, levD_zero_right]
      have hlen : (a.take (i + 1)).length = i + 1 := by rw [List.length_take]; omega
      nth_rewrite 2 [← hlen]
      exact edits_nil_right _
    | succ j ihj =>
      intro hi hj
      have hi' : i ≤ a.length := by omega
      have hj' : j ≤ b.length := by omega
      have hia : i < a.length := by omega
      have hjb : j < b.length := by omega
      have h1 := ihi (j + 1) hi' hj
      have h2 := ihj hi hj'
      have h3 := ihi j hi' hj'
      have hta := take_succ_getD hia
      have htb := take_succ_getD hjb
      rw [levD_succ]
      rcases (by omega :
          min (min (levD a b i (j + 1) + 1) (levD a b (i + 1) j + 1))
              (levD a b i j + levCost (a.getD i ' ') (b.getD j ' '))
            = levD a b i (j + 1) + 1 ∨
          min (min (levD a b i (j + 1) + 1) (levD a b (i + 1) j + 1))
              (levD a b i j + levCost (a.getD i ' ') (b.getD j ' '))
            = levD a b (i + 1) j + 1 ∨
          min (min (levD a b i (j + 1) + 1) (levD a b (i + 1) j + 1))
              (levD a b i j + levCost (a.getD i ' ') (b.getD j ' '))
            = levD a b i j + levCost (a.getD i ' ') (b.getD j ' ')) with
        hmin | hmin | hmin
      · rw [hmin, hta]
        exact Edits.del _ _ _ _ h1
      · rw [hmin, htb]
        exact Edits.ins _ _ _ _ h2
      · rw [hmin]
        by_cases hxy : a.getD i ' ' = b.getD j ' '
        · have hc : levCost (a.getD i ' ') (b.getD j ' ') = 0 := by
            unfold levCost; rw [if_pos hxy]
          rw [hc, Nat.add_zero, hta, htb, hxy]
          exact Edits.copy _ _ _ _ h3
        · have hc : levCost (a.getD i ' ') (b.getD j ' ') = 1 := by
            unfold levCost; rw [if_neg hxy]
          rw [hc, hta, htb]
          exact Edits.subst _ _ _ _ _ hxy h3

theorem levD_le_of_edits (a b : Str) {A B : Str} {k : Nat} (h : Edits A B k) :
    ∀ i j, i ≤ a.length → j ≤ b.length → A = a.take i → B = b.take j →
      levD a b i j ≤ k := by
  induction h with
  | nil =>
    intro i j hi hj hA hB
    have hi0 : i = 0 := by
      rcases List.take_eq_nil_iff.mp hA.symm with h0 | h0
      · exact h0
      · rw [h0] at hi; simpa using hi
    have hj0 : j = 0 := by
      rcases List.take_eq_nil_iff.mp hB.symm with h0 | h0
      · exact h0
      · rw [h0] at hj; simpa using hj
    subst hi0 hj0
    rw [levD_zero_left]
  | ins a' b' n y _ ih =>
    intro i j hi hj hA hB
    obtain ⟨j', rfl, hj'b, hb', hy⟩ := take_concat_inv hj hB
    have ihh := ih i j' hi (by omega) hA hb'
    cases i with
    | zero =>
      rw [levD_zero_left]
      rw [levD_zero_left a b j'] at ihh
      omega
    | succ i' =>
      rw [levD_succ]
      omega
  | del a' b' n x _ ih =>
    intro i j hi hj hA hB
    obtain ⟨i', rfl, hi'a, ha', hx⟩ := take_concat_inv hi hA
    have ihh := ih i' j (by omega) hj ha' hB
    cases j with
    | zero =>
      rw [levD_zero_right]
      rw [levD_zero_right a b i'] at ihh
      omega
    | succ j' =>
      rw [levD_succ]
      omega
  | copy a' b' n x _ ih =>
    intro i j hi hj hA hB
    obtain ⟨i', rfl, hi'a, ha', hx⟩ := take_concat_inv hi hA
    obtain ⟨j', rfl, hj'b, hb', hy⟩ := take_concat_inv hj hB
    have ihh := ih i' j' (by omega) (by omega) ha' hb'
    have hc : levCost (a.getD i' ' ') (b.getD j' ' ') = 0 := by
      unfold levCost
      rw [if_pos (by rw [← hx, ← hy])]
    rw [levD_succ, hc]
    omega
  | subst a' b' n x y hxy _ ih =>
    intro i j hi hj hA hB
    obtain ⟨i', rfl, hi'a, ha', hx⟩ := take_concat_inv hi hA
    obtain ⟨j', rfl, hj'b, hb', hy⟩ := take_concat_inv hj hB
    have ihh := ih i' j' (by omega) (by omega) ha' hb'
    have hc : levCost (a.getD i' ' ') (b.getD j' ' ') ≤ 1 := by
      unfold levCost
      split <;> omega
    rw [levD_succ]
    omega

theorem levenshtein_edits (a b : Str) : Edits a b (levenshtein a b) := by
  have h := edits_take_levD a b a.length b.length le_rfl le_rfl
  rw [List.take_length, List.take_length] at h
  rw [lev_eq_levD]
  exact h

theorem levenshtein_le_of_edits {a b : Str} {k : Nat} (h : Edits a b k) :
    levenshtein a b ≤ k := by
  rw [lev_eq_levD]
  exact levD_le_of_edits a b h a.length b.length le_rfl le_rfl
    (List.take_length a).symm (List.take_length b).symm

theorem levenshtein_symm (a b : Str) : levenshtein a b = levenshtein b a :=
  Nat.le_antisymm (levenshtein_le_of_edits (edits_symm (levenshtein_edits b a)))
    (levenshtein_le_of_edits (edits_symm (levenshtein_edits a b)))

theorem levenshtein_self (a : Str) : levenshtein a a = 0 :=
  Nat.le_zero.mp (levenshtein_le_of_edits (edits_refl a))

theorem exists_edits_le_max : ∀ a b : Str, ∃ n, Edits a b n ∧ n ≤ max a.length b.length := by
  intro a
  induction a using List.reverseRecOn with
  | nil => intro b; exact ⟨b.length, edits_nil_left b, by simp⟩
  | append_singleton a x iha =>
    intro b
    rcases List.eq_nil_or_concat' b with rfl | ⟨b', y, rfl⟩
    · exact ⟨(a ++ [x]).length, edits_nil_right (a ++ [x]), by simp⟩
    · obtain ⟨n, hn, hle⟩ := iha b'
      by_cases hxy : x = y
      · subst hxy
        refine ⟨n, Edits.copy _ _ _ _ hn, ?_⟩
        simp only [List.length_append, List.length_cons, List.length_nil]
        omega
      · refine ⟨n + 1, Edits.subst _ _ _ _ _ hxy hn, ?_⟩
        simp only [List.length_append, List.length_cons, List.length_nil]
        omega

theorem levenshtein_le_max (a b : Str) :
    levenshtein a b ≤ max a.length b.length := by
  obtain ⟨n, hn, hle⟩ := exists_edits_le_max a b
  exact le_trans (levenshtein_le_of_edits hn) hle

theorem similarity_eq (a b : Str) :
    similarity a b =
      1 - (levenshtein a b : ℚ) / ((max (max a.length b.length) 1 : ℕ) : ℚ) := by
  show (1 : ℚ) - (levenshtein a b : ℚ) /
      ((if max a.length b.length = 0 then 1 else max a.length b.length : ℕ) : ℚ) = _
  by_cases h : max a.length b.length = 0
  · rw [if_pos h, h]
    norm_num
  · rw [if_neg h]
    have : max (max a.length b.length) 1 = max a.length b.length := by omega
    rw [this]

/-! ### Claim C2: similarity is one minus the true edit distance ratio -/

/-- C2. The implemented `levenshtein` is the true Levenshtein distance (it
is the least cost of an edit script of insertions, deletions and
substitutions transforming the first string into the second), `similarity`
equals one minus that distance divided by the larger length clamped to at
least one, and the similarity of two empty strings is 1. -/
theorem claim_C2_similarity_true_distance (a b : Str) :
    (Edits a b (levenshtein a b) ∧ ∀ k, Edits a b k → levenshtein a b ≤ k) ∧
      similarity a b =
        1 - (levenshtein a b : ℚ) / ((max (max a.length b.length) 1 : ℕ) : ℚ) ∧
      similarity [] [] = 1 := by
  refine ⟨⟨levenshtein_edits a b, fun _ hk => levenshtein_le_of_edits hk⟩,
    similarity_eq a b, ?_⟩
  norm_num [similarity, levenshtein]

/-! ### Claim C8: similarity bounds and identity -/

/-- C8. Similarity always lies between 0 and 1, and the similarity of any
string with itself is 1. -/
theorem claim_C8_similarity_bounds (a b : Str) :
    0 ≤ similarity a b ∧ similarity a b ≤ 1 ∧ similarity a a = 1 := by
  have hN1 : (1 : ℕ) ≤ max (max a.length b.length) 1 := le_max_right _ _
  have hNpos : (0 : ℚ) < ((max (max a.length b.length) 1 : ℕ) : ℚ) := by
    exact_mod_cast Nat.lt_of_lt_of_le Nat.zero_lt_one hN1
  refine ⟨?_, ?_, ?_⟩
  · rw [similarity_eq]
    have hd : (levenshtein a b : ℚ) / ((max (max a.length b.length) 1 : ℕ) : ℚ) ≤ 1 := by
      rw [div_le_one hNpos]
      exact_mod_cast le_trans (levenshtein_le_max a b) (le_max_left _ _)
    linarith
  · rw [similarity_eq]
    have hd : 0 ≤ (levenshtein a b : ℚ) / ((max (max a.length b.length) 1 : ℕ) : ℚ) :=
      div_nonneg (by positivity) (le_of_lt hNpos)
    linarith
  · rw [similarity_eq, levenshtein_self]
    norm_num

/-! ### Claim C9: similarity is symmetric -/

/-- C9. Similarity, like the implemented edit distance, is symmetric in its
two arguments. -/
theorem claim_C9_similarity_symm (a b : Str) : similarity a b = similarity b a := by
  rw [similarity_eq, similarity_eq, levenshtein_symm a b,
    Nat.max_comm a.length b.length]

/-! ### Claim C1: priority of the note-extraction pass -/

/-- C1. Whenever the raw input matches the note-extraction regex with a
trailing text that is nonempty after trimming, and the input would also
fuzzy-match some canonical phrase, `detectQuickAction` returns the
create-ticket action together with the trimmed trailing text; the fuzzy
pass is never consulted. -/
theorem claim_C1_note_priority (raw note : Str)
    (hre : ticketNoteCapture raw = some note) (hne : trimWs note ≠ [])
    (_hfz : ∃ a, hits raw a = true) :
    detectQuickAction raw =
      some { action := QuickAction.ticket, note := some (trimWs note) } := by
  unfold detectQuickAction usableNote
  rw [hre]
  simp [hne]

theorem claim_C1_note_priority_witness :
    ticketNoteCapture "ticket start button broken".data =
        some "start button broken".data ∧
      detectQuickAction "ticket start button broken".data =
        some { action := QuickAction.ticket,
               note := some (trimWs "start button broken".data) } :=
  ⟨by decide,
   claim_C1_note_priority "ticket start button broken".data
     "start button broken".data (by decide) (by decide)
     ⟨QuickAction.start, by decide⟩⟩

/-! ### Claim C5: totality and the no-match cases -/

/-- C5. The classifier is a total function in the model; when the
note-extraction pass yields no usable note, no canonical phrase
fuzzy-matches, and no keyword-pair fallback rule fires, the result is no
match, and in particular the empty input yields no match. -/
theorem claim_C5_total_nomatch :
    (∀ raw : Str,
        usableNote raw = none →
        canonOrder.find? (fun a => (CANON a).any (fun p => fuzzyHit raw p)) = none →
        fallbackAction raw = none →
        detectQuickAction raw = none) ∧
      detectQuickAction [] = none := by
  constructor
  · intro raw h1 h2 h3
    unfold detectQuickAction fuzzyAction
    rw [h1, h2, h3]
  · decide

theorem claim_C5_total_nomatch_witness :
    detectQuickAction "???".data = none :=
  claim_C5_total_nomatch.1 "???".data (by decide) (by decide) (by decide)

/-! ### Claim C6: determinism -/

/-- C6. The classifier is a pure function of the raw input and the fixed
phrase table: two calls on the same input give identical results; the model
consumes no time, randomness or external state. -/
theorem claim_C6_determinism (raw : Str) :
    detectQuickAction raw = detectQuickAction raw := rfl

/-! ### Claim C10: every note belongs to the create-ticket action -/

/-- C10. Whenever the classifier result carries a note, the action is the
create-ticket action, and the note is nonempty and carries no leading or
trailing whitespace. -/
theorem claim_C10_note_invariant (raw : Str) (d : Detected) (n : Str)
    (hd : detectQuickAction raw = some d) (hn : d.note = some n) :
    d.action = QuickAction.ticket ∧ n ≠ [] ∧ trimWs n = n := by
  unfold detectQuickAction at hd
  cases h : usableNote raw with
  | none =>
    rw [h] at hd
    cases hf : fuzzyAction raw with
    | none => rw [hf] at hd; exact absurd hd (by simp)
    | some a =>
      rw [hf] at hd
      have hd' : d = { action := a } := by
        injection hd with hd'; exact hd'.symm
      rw [hd'] at hn
      exact absurd hn (by simp)
  | some t =>
    rw [h] at hd
    have hd' : d = { action := QuickAction.ticket, note := some t } := by
      injection hd with hd'; exact hd'.symm
    unfold usableNote at h
    cases hc : ticketNoteCapture raw with
    | none => rw [hc] at h; exact absurd h (by simp)
    | some note0 =>
      rw [hc] at h
      dsimp only at h
      by_cases hz : trimWs note0 = []
      · rw [if_pos hz] at h; exact absurd h (by simp)
      · rw [if_neg hz] at h
        have ht : t = trimWs note0 := by injection h with h'; exact h'.symm
        rw [hd'] at hn
        have hn' : n = t := by injection hn with hn'; exact hn'.symm
        subst hn' ht
        refine ⟨by rw [hd'], hz, trimWs_idem note0⟩

/-! ### Claim C3: the fuzzy match condition -/

/-- C3, counterexample. The claim states that `fuzzyHit` returns true
whenever, after normalization, one string contains the other, the
similarity is at least 0.78, or both are short with edit distance at most
2. At input `""` against phrase `"hi"` the empty normalized input is
contained in the normalized phrase, and both normalized strings are short
with edit distance 2, yet the function returns false: the source guards
with a non-emptiness test that the claim omits. -/
theorem claim_C3_counterexample :
    hasSub (norm []) (norm "hi".data) = true ∧
      max (norm []).length (norm "hi".data).length ≤ 8 ∧
      levenshtein (norm []) (norm "hi".data) ≤ 2 ∧
      fuzzyHit [] "hi".data = false := by
  refine ⟨by decide, by decide, by decide, by decide⟩

/-- C3, amended. Provided both normalized strings are nonempty, `fuzzyHit`
returns true if, after normalization, either string contains the other as
a substring, or the similarity of the two normalized strings is at least
0.78, or both normalized strings have length at most 8 and their edit
distance is at most 2. -/
theorem claim_C3_fuzzy_condition (input phrase : Str)
    (hA : (norm input).isEmpty = false) (hB : (norm phrase).isEmpty = false)
    (h : hasSub (norm phrase) (norm input) = true ∨
         hasSub (norm input) (norm phrase) = true ∨
         (78 : ℚ) / 100 ≤ similarity (norm input) (norm phrase) ∨
         (max (norm input).length (norm phrase).length ≤ 8 ∧
           levenshtein (norm input) (norm phrase) ≤ 2)) :
    fuzzyHit input phrase = true := by
  simp only [fuzzyHit]
  rw [hA, hB]
  rw [if_neg (by simp)]
  rcases h with h | h | h | h
  · rw [if_pos (by rw [h]; simp)]
  · rw [if_pos (by rw [h]; simp)]
  · by_cases hsub : (hasSub (norm phrase) (norm input) ||
        hasSub (norm input) (norm phrase)) = true
    · rw [if_pos hsub]
    · rw [if_neg hsub, if_pos h]
  · by_cases hsub : (hasSub (norm phrase) (norm input) ||
        hasSub (norm input) (norm phrase)) = true
    · rw [if_pos hsub]
    · rw [if_neg hsub]
      by_cases hsim : (78 : ℚ) / 100 ≤ similarity (norm input) (norm phrase)
      · rw [if_pos hsim]
      · rw [if_neg hsim, if_pos h]

theorem claim_C3_fuzzy_condition_witness :
    hasSub (norm "ticket".data) (norm "please ticket".data) = true ∧
      fuzzyHit "please ticket".data "ticket".data = true :=
  ⟨by decide,
   claim_C3_fuzzy_condition "please ticket".data "ticket".data
     (by decide) (by decide) (Or.inl (by decide))⟩

/-! ### Claim C4: order of the canonical fuzzy pass -/

/-- C4. The canonical fuzzy pass tests the actions in the fixed order
start, end, tickets, ticket; whenever some canonical phrase of some action
fuzzy-matches the input, the classifier of this pass returns the matching
action that is earliest in that order. -/
theorem claim_C4_canonical_order (input : Str) (a : QuickAction)
    (ha : hits input a = true) :
    ∃ b, fuzzyAction input = some b ∧ hits input b = true ∧
      ∀ c, hits input c = true → actIdx b ≤ actIdx c := by
  unfold fuzzyAction
  have hord : canonOrder =
      [QuickAction.start, QuickAction.«end», QuickAction.tickets,
       QuickAction.ticket] := rfl
  have hfun : (fun a => (CANON a).any fun p => fuzzyHit input p) = hits input := rfl
  rw [hord, hfun]
  cases hs : hits input QuickAction.start with
  | true =>
    rw [List.find?_cons_of_pos _ hs]
    exact ⟨_, rfl, hs, fun c _ => by cases c <;> simp [actIdx]⟩
  | false =>
    rw [List.find?_cons_of_neg _ (by rw [hs]; simp)]
    cases he : hits input QuickAction.«end» with
    | true =>
      rw [List.find?_cons_of_pos _ he]
      refine ⟨_, rfl, he, fun c hc => ?_⟩
      cases c <;> simp_all [actIdx]
    | false =>
      rw [List.find?_cons_of_neg _ (by rw [he]; simp)]
      cases ht : hits input QuickAction.tickets with
      | true =>
        rw [List.find?_cons_of_pos _ ht]
        refine ⟨_, rfl, ht, fun c hc => ?_⟩
        cases c <;> simp_all [actIdx]
      | false =>
        rw [List.find?_cons_of_neg _ (by rw [ht]; simp)]
        cases hk : hits input QuickAction.ticket with
        | true =>
          rw [List.find?_cons_of_pos _ hk]
          refine ⟨_, rfl, hk, fun c hc => ?_⟩
          cases c <;> simp_all [actIdx]
        | false =>
          exfalso
          cases a <;> simp_all

theorem claim_C4_canonical_order_witness :
    hits "start work".data QuickAction.start = true ∧
      (∃ b, fuzzyAction "start work".data = some b ∧
        hits "start work".data b = true ∧
        ∀ c, hits "start work".data c = true → actIdx b ≤ actIdx c) :=
  ⟨by decide,
   claim_C4_canonical_order "start work".data QuickAction.start (by decide)⟩

/-! ### Claim C7: idempotence of normalization -/

theorem char_toNat_ofNat {n : Nat} (h : n < 55296) : (Char.ofNat n).toNat = n := by
  rw [Char.ofNat, dif_pos (Or.inl h)]
  rfl

theorem jsToLower_eq_self {c : Char} (h : ¬(65 ≤ c.toNat ∧ c.toNat ≤ 90)) :
    jsToLower c = c := by
  unfold jsToLower
  rw [if_neg h]

theorem jsToLower_toNat_of_upper {c : Char} (h : 65 ≤ c.toNat ∧ c.toNat ≤ 90) :
    (jsToLower c).toNat = c.toNat + 32 := by
  unfold jsToLower
  rw [if_pos h]
  exact char_toNat_ofNat (by omega)

theorem jsToLower_idem (c : Char) : jsToLower (jsToLower c) = jsToLower c := by
  by_cases h : 65 ≤ c.toNat ∧ c.toNat ≤ 90
  · have h2 := jsToLower_toNat_of_upper h
    exact jsToLower_eq_self (by omega)
  · rw [jsToLower_eq_self h, jsToLower_eq_self h]

theorem replaceStep_idem (c : Char) : replaceStep (replaceStep c) = replaceStep c := by
  by_cases h : (jsIsLetter c || jsIsDigit c || jsIsSpace c) = true
  · have h1 : replaceStep c = c := by unfold replaceStep; rw [if_pos h]
    rw [h1]
    exact h1
  · have h1 : replaceStep c = ' ' := by unfold replaceStep; rw [if_neg h]
    rw [h1]
    decide

theorem jsToLower_fix_replaceStep (z : Char) :
    jsToLower (replaceStep (jsToLower z)) = replaceStep (jsToLower z) := by
  by_cases h : (jsIsLetter (jsToLower z) || jsIsDigit (jsToLower z) ||
      jsIsSpace (jsToLower z)) = true
  · have h1 : replaceStep (jsToLower z) = jsToLower z := by
      unfold replaceStep; rw [if_pos h]
    rw [h1, jsToLower_idem]
  · have h1 : replaceStep (jsToLower z) = ' ' := by
      unfold replaceStep; rw [if_neg h]
    rw [h1]
    decide

theorem mem_collapseWs {c : Char} :
    ∀ {l : Str}, c ∈ collapseWs l → c = ' ' ∨ (c ∈ l ∧ jsIsSpace c = false)
  | [], h => by simp [collapseWs] at h
  | [d], h => by
    unfold collapseWs at h
    rcases List.mem_singleton.mp h with rfl
    by_cases hd : jsIsSpace d = true
    · left; rw [if_pos hd]
    · right
      rw [if_neg hd]
      exact ⟨List.mem_singleton.mpr rfl, by simpa using hd⟩
  | d :: e :: cs, h => by
    unfold collapseWs at h
    by_cases hde : (jsIsSpace d && jsIsSpace e) = true
    · rw [if_pos hde] at h
      rcases mem_collapseWs h with h' | ⟨h1, h2⟩
      · exact Or.inl h'
      · exact Or.inr ⟨List.mem_cons_of_mem d h1, h2⟩
    · rw [if_neg hde] at h
      rcases List.mem_cons.mp h with rfl | h'
      · by_cases hd : jsIsSpace d = true
        · left; rw [if_pos hd]
        · right
          rw [if_neg hd]
          exact ⟨List.mem_cons_self d _, by simpa using hd⟩
      · rcases mem_collapseWs h' with h'' | ⟨h1, h2⟩
        · exact Or.inl h''
        · exact Or.inr ⟨List.mem_cons_of_mem d h1, h2⟩

theorem head?_collapseWs :
    ∀ (d : Char) (cs : Str),
      (collapseWs (d :: cs)).head? = some (if jsIsSpace d then ' ' else d)
  | d, [] => by unfold collapseWs; rfl
  | d, e :: cs => by
    unfold collapseWs
    by_cases hde : (jsIsSpace d && jsIsSpace e) = true
    · rw [if_pos hde]
      rw [head?_collapseWs e cs]
      have hd : jsIsSpace d = true := by
        rcases Bool.and_eq_true_iff.mp hde with ⟨h1, _⟩; exact h1
      have he : jsIsSpace e = true := by
        rcases Bool.and_eq_true_iff.mp hde with ⟨_, h2⟩; exact h2
      rw [if_pos hd, if_pos he]
    · rw [if_neg hde]
      rfl

theorem chain'_collapseWs :
    ∀ l : Str,
      List.Chain' (fun x y => ¬(jsIsSpace x = true ∧ jsIsSpace y = true))
        (collapseWs l)
  | [] => by simp [collapseWs]
  | [d] => by unfold collapseWs; simp
  | d :: e :: cs => by
    unfold collapseWs
    by_cases hde : (jsIsSpace d && jsIsSpace e) = true
    · rw [if_pos hde]
      exact chain'_collapseWs (e :: cs)
    · rw [if_neg hde]
      refine List.chain'_cons'.mpr ⟨?_, chain'_collapseWs (e :: cs)⟩
      intro y hy
      rw [head?_collapseWs e cs] at hy
      have hy' : y = if jsIsSpace e then ' ' else e := by
        injection hy with h'; exact h'.symm
      by_cases hd : jsIsSpace d = true
      · have he : jsIsSpace e = false := by
          cases he' : jsIsSpace e
          · rfl
          · exact absurd (by rw [hd, he']; rfl) hde
        rw [if_pos hd, hy', if_neg (by simp [he])]
        intro ⟨_, h2⟩
        rw [he] at h2
        exact Bool.false_ne_true h2
      · rw [if_neg hd]
        intro ⟨h1, _⟩
        exact hd h1

theorem collapseWs_eq_self :
    ∀ {l : Str}, (∀ c ∈ l, jsIsSpace c = true → c = ' ') →
      List.Chain' (fun x y => ¬(jsIsSpace x = true ∧ jsIsSpace y = true)) l →
      collapseWs l = l
  | [], _, _ => rfl
  | [d], hsp, _ => by
    unfold collapseWs
    by_cases hd : jsIsSpace d = true
    · rw [if_pos hd, hsp d (List.mem_singleton.mpr rfl) hd]
    · rw [if_neg hd]
  | d :: e :: cs, hsp, hch => by
    unfold collapseWs
    have hrel := (List.chain'_cons.mp hch).1
    have hde : (jsIsSpace d && jsIsSpace e) ≠ true := by
      intro hx
      rcases Bool.and_eq_true_iff.mp hx with ⟨h1, h2⟩
      exact hrel ⟨h1, h2⟩
    rw [if_neg hde]
    have htail := collapseWs_eq_self
      (fun c hc h => hsp c (List.mem_cons_of_mem d hc) h)
      (List.chain'_cons.mp hch).2
    rw [htail]
    by_cases hd : jsIsSpace d = true
    · rw [if_pos hd, hsp d (List.mem_cons_self d _) hd]
    · rw [if_neg hd]

theorem mem_trimWs {c : Char} {l : Str} (h : c ∈ trimWs l) : c ∈ l := by
  unfold trimWs at h
  rw [List.mem_reverse] at h
  have h1 := List.dropWhile_subset jsIsSpace h
  rw [List.mem_reverse] at h1
  exact List.dropWhile_subset jsIsSpace h1

theorem chain'_trimWs {l : Str}
    (h : List.Chain' (fun x y => ¬(jsIsSpace x = true ∧ jsIsSpace y = true)) l) :
    List.Chain' (fun x y => ¬(jsIsSpace x = true ∧ jsIsSpace y = true))
      (trimWs l) := by
  unfold trimWs
  have h1 := h.suffix (List.dropWhile_suffix jsIsSpace)
  have h2 : List.Chain' (fun x y => ¬(jsIsSpace x = true ∧ jsIsSpace y = true))
      (l.dropWhile jsIsSpace).reverse := by
    rw [List.chain'_reverse]
    exact h1.imp (fun a b hab h => hab ⟨h.2, h.1⟩)
  have h3 := h2.suffix (List.dropWhile_suffix jsIsSpace)
  rw [List.chain'_reverse]
  exact h3.imp (fun a b hab h => hab ⟨h.2, h.1⟩)

/-- C7. Normalization is idempotent: a second application of `norm` to its
own output changes nothing. -/
theorem claim_C7_norm_idempotent (s : Str) : norm (norm s) = norm s := by
  have hX : norm s = trimWs (collapseWs (((nfkcTxt s).map jsToLower).map replaceStep)) := rfl
  set X := ((nfkcTxt s).map jsToLower).map replaceStep with hXdef
  set t := trimWs (collapseWs X) with htdef
  have hmem : ∀ c ∈ t, c = ' ' ∨ (c ∈ X ∧ jsIsSpace c = false) :=
    fun c hc => mem_collapseWs (mem_trimWs hc)
  have hXfix : ∀ c ∈ X, jsToLower c = c ∧ replaceStep c = c := by
    intro c hc
    rw [hXdef] at hc
    rcases List.mem_map.mp hc with ⟨y, hy, rfl⟩
    rcases List.mem_map.mp hy with ⟨z, _, rfl⟩
    exact ⟨jsToLower_fix_replaceStep z, replaceStep_idem (jsToLower z)⟩
  have hlow : ∀ c ∈ t, jsToLower c = c := by
    intro c hc
    rcases hmem c hc with rfl | ⟨hcX, _⟩
    · decide
    · exact (hXfix c hcX).1
  have hrep : ∀ c ∈ t, replaceStep c = c := by
    intro c hc
    rcases hmem c hc with rfl | ⟨hcX, _⟩
    · decide
    · exact (hXfix c hcX).2
  have hmap : ((nfkcTxt t).map jsToLower).map replaceStep = t := by
    show ((t.map jsToLower).map replaceStep) = t
    rw [(List.map_congr_left hlow).trans (List.map_id t)]
    rw [(List.map_congr_left hrep).trans (List.map_id t)]
  have hsp : ∀ c ∈ t, jsIsSpace c = true → c = ' ' := by
    intro c hc h
    rcases hmem c hc with rfl | ⟨_, hns⟩
    · rfl
    · rw [hns] at h; exact absurd h Bool.false_ne_true
  have hcol : collapseWs t = t :=
    collapseWs_eq_self hsp (chain'_trimWs (chain'_collapseWs X))
  have hfin : trimWs t = t := by
    rw [htdef]
    exact trimWs_idem (collapseWs X)
  show trimWs (collapseWs (((nfkcTxt t).map jsToLower).map replaceStep)) = t
  rw [hmap, hcol]
  exact hfin

theorem claim_C10_note_invariant_witness :
    QuickAction.ticket = QuickAction.ticket ∧
      "leak".data ≠ [] ∧ trimWs "leak".data = "leak".data :=
  claim_C10_note_invariant "ticket leak".data
    { action := QuickAction.ticket, note := some "leak".data }
    "leak".data (by decide) rfl

end ETS
